import Mathlib

/-!
Verification of the whois2http gateway (`main.go`) against its
natural-language specification.  The program's pure core is shallowly
embedded below: strings are modelled as `List Char` (the program only
manipulates ASCII bytes at the points the claims touch), the regular
expressions of `main.go` are embedded as executable matchers, and the
per-connection handler is embedded as a pure function from its inputs
(rate-limiter answer, line read from the connection, upstream HTTP
outcome) to the writes it performs and the value it returns.
-/

/- ### Query validator

Embeds `commandPattern` from `main.go`:

    ^[a-zA-Z0-9][a-zA-Z0-9-]{0,61}[a-zA-Z0-9]\.[a-zA-Z]{2,}\.?$

`MatchString` with both anchors is whole-string matching.  The pattern is
a second-level label (alphanumeric, then up to 61 alphanumerics or
hyphens, then alphanumeric), a literal dot, a TLD of at least two ASCII
letters, and an optional trailing dot. -/

/-- Character class `[a-zA-Z0-9]` of the regex (`Char.isAlpha` and
`Char.isDigit` are ASCII-only, exactly like the Go character class). -/
def isAlnum (c : Char) : Bool := c.isAlpha || c.isDigit

/-- Character class `[a-zA-Z0-9-]` of the regex. -/
def isLabelBody (c : Char) : Bool := isAlnum c || c = '-'

/-- Matcher for `[a-zA-Z0-9-]*[a-zA-Z0-9]` (the length bound `{0,61}` is
enforced separately by `matchesSLD`). -/
def matchesInner : List Char → Bool
  | [] => false
  | [c] => isAlnum c
  | c :: rest => isLabelBody c && matchesInner rest

/-- Matcher for `[a-zA-Z0-9][a-zA-Z0-9-]{0,61}[a-zA-Z0-9]`: the
second-level label of the regex, 2 to 63 characters. -/
def matchesSLD : List Char → Bool
  | [] => false
  | c :: rest => isAlnum c && decide (rest.length ≤ 62) && matchesInner rest

/-- Matcher for `[a-zA-Z]{2,}`: the TLD part of the regex. -/
def matchesTLD (l : List Char) : Bool :=
  decide (2 ≤ l.length) && l.all Char.isAlpha

/-- Split a character list at every dot, like `String.splitOn` with a
dot separator.  Used to decompose the input deterministically: all
character classes of `commandPattern` exclude the dot, so the regex's
mandatory dot and optional trailing dot are exactly the dots of the
input. -/
def splitOnDot : List Char → List (List Char)
  | [] => [[]]
  | c :: rest =>
    if c = '.' then [] :: splitOnDot rest
    else
      match splitOnDot rest with
      | [] => [[c]]
      | p :: ps => (c :: p) :: ps

/-- Executable embedding of `commandPattern.MatchString` from `main.go`:
either `SLD.TLD` or `SLD.TLD.` (trailing dot). -/
def commandPatternMatch (s : List Char) : Bool :=
  match splitOnDot s with
  | [a, b] => matchesSLD a && matchesTLD b
  | [a, b, c] => matchesSLD a && matchesTLD b && c.isEmpty
  | _ => false

/-- Language of the regex `commandPattern`, written as the regex reads:
an existential decomposition into `[a-zA-Z0-9]`, `[a-zA-Z0-9-]{0,61}`,
`[a-zA-Z0-9]`, a dot, `[a-zA-Z]{2,}` and an optional trailing dot. -/
def commandPatternLang (s : List Char) : Prop :=
  ∃ c0 mid c1 t d,
    s = (c0 :: (mid ++ [c1])) ++ '.' :: (t ++ d) ∧
    isAlnum c0 = true ∧
    mid.length ≤ 61 ∧
    (∀ c ∈ mid, isLabelBody c = true) ∧
    isAlnum c1 = true ∧
    2 ≤ t.length ∧
    (∀ c ∈ t, c.isAlpha = true) ∧
    (d = [] ∨ d = ['.'])

/- ### Line-ending translator

Embeds `translateLineEndingPattern.ReplaceAll(body, []byte("$1\r\n"))`
for the pattern `([^\r])\n`: Go's `ReplaceAll` rewrites the leftmost
matches, scanning left to right without overlap, so each two-byte match
(a non-CR byte followed by LF) becomes the captured byte followed by
CR LF, and scanning resumes after the replaced match. -/

/-- Embedding of the `ReplaceAll` call on `translateLineEndingPattern`. -/
def translateLineEndings : List Char → List Char
  | [] => []
  | [c] => [c]
  | a :: b :: rest =>
    if a ≠ '\r' ∧ b = '\n' then a :: '\r' :: '\n' :: translateLineEndings rest
    else a :: translateLineEndings (b :: rest)

/-- Helper for `noBareLF`: every LF in the list is preceded by CR, where
the character preceding the list head is `prev`. -/
def noBareLFAux (prev : Char) : List Char → Bool
  | [] => true
  | c :: rest =>
    if c = '\n' ∧ prev ≠ '\r' then false else noBareLFAux c rest

/-- Property used by the spec sentence for C2: every LF of the list is
immediately preceded by CR (an LF at the head has no preceding CR). -/
def noBareLF : List Char → Bool
  | [] => true
  | c :: rest => if c = '\n' then false else noBareLFAux c rest

/-- No two consecutive LF characters occur in the list. -/
def noConsecLF : List Char → Bool
  | a :: b :: rest =>
    if a = '\n' ∧ b = '\n' then false else noConsecLF (b :: rest)
  | _ => true

/-- No adjacent pair of the list matches `([^\r])\n`. -/
def noPairLF : List Char → Bool
  | a :: b :: rest =>
    if a ≠ '\r' ∧ b = '\n' then false else noPairLF (b :: rest)
  | _ => true

/- ### Upstream URL building

Embeds the handler line

    url := strings.Replace(*upstream, "\x7b\x7bquery\x7d\x7d", url.QueryEscape(domain), -1)

`strings.Replace` with count -1 replaces every occurrence, scanning left
to right without overlap.  `url.QueryEscape` works on the UTF-8 bytes of
the query: bytes that are ASCII alphanumerics or one of hyphen,
underscore, dot, tilde stay; a space byte becomes a plus sign; every
other byte becomes a percent sign and two uppercase hex digits. -/

/-- Left curly brace character (written by code point). -/
def lbrace : Char := Char.ofNat 123

/-- Right curly brace character (written by code point). -/
def rbrace : Char := Char.ofNat 125

/-- Characters of the placeholder token of the upstream template. -/
def queryTok : List Char := [lbrace, lbrace, 'q', 'u', 'e', 'r', 'y', rbrace, rbrace]

/-- Characters of the bare word inside the placeholder token. -/
def queryWord : List Char := ['q', 'u', 'e', 'r', 'y']

/-- Uppercase hexadecimal digit for a nibble, as Go's escaping emits. -/
def hexDigitChar (n : Nat) : Char :=
  if n < 10 then Char.ofNat (48 + n) else Char.ofNat (55 + n)

/-- Bytes Go's `url.QueryEscape` leaves unescaped: ASCII alphanumerics,
hyphen, underscore, dot, tilde. -/
def isUnreservedByte (b : Nat) : Bool :=
  (65 ≤ b && b ≤ 90) || (97 ≤ b && b ≤ 122) || (48 ≤ b && b ≤ 57) ||
    b = 45 || b = 95 || b = 46 || b = 126

/-- Escape one byte the way `url.QueryEscape` does. -/
def escByte (b : Nat) : List Char :=
  if isUnreservedByte b then [Char.ofNat b]
  else if b = 32 then ['+']
  else ['%', hexDigitChar (b / 16), hexDigitChar (b % 16)]

/-- UTF-8 encoding of a character (the byte view Go strings give; the
masks keep every emitted byte below 256, and agree with UTF-8 on every
valid code point). -/
def utf8Bytes (c : Char) : List Nat :=
  let n := c.toNat
  if n < 128 then [n]
  else if n < 2048 then [192 + (n / 64) % 32, 128 + n % 64]
  else if n < 65536 then [224 + (n / 4096) % 16, 128 + (n / 64) % 64, 128 + n % 64]
  else [240 + (n / 262144) % 8, 128 + (n / 4096) % 64, 128 + (n / 64) % 64, 128 + n % 64]

/-- Embedding of `url.QueryEscape` on the UTF-8 bytes of the query. -/
def queryEscape (q : List Char) : List Char :=
  q.flatMap (fun c => (utf8Bytes c).flatMap escByte)

/-- True when the list contains neither curly brace. -/
def braceFree (l : List Char) : Bool :=
  l.all (fun c => !(c == lbrace) && !(c == rbrace))

/-- Substring test: some suffix of the second list starts with `pat`,
like Go's `strings.Contains`. -/
def containsSub (pat : List Char) : List Char → Bool
  | [] => pat.isEmpty
  | c :: rest => pat.isPrefixOf (c :: rest) || containsSub pat rest

/-- Fuel-indexed worker for `replaceQueryTok`; with fuel at least the
length of the input it performs the left-to-right non-overlapping
replacement of `strings.Replace(s, tok, rep, -1)`. -/
def replaceTokAux (rep : List Char) : Nat → List Char → List Char
  | _, [] => []
  | 0, s => s
  | fuel + 1, c :: rest =>
    if queryTok.isPrefixOf (c :: rest) then
      rep ++ replaceTokAux rep fuel ((c :: rest).drop 9)
    else c :: replaceTokAux rep fuel rest

/-- Embedding of `strings.Replace(s, tok, rep, -1)` for the placeholder
token: every occurrence is replaced, scanning left to right without
overlap. -/
def replaceQueryTok (rep s : List Char) : List Char :=
  replaceTokAux rep s.length s

/-- Embedding of the URL construction of the handler: substitute the
escaped query for every placeholder occurrence in the template. -/
def buildURL (tmpl q : List Char) : List Char :=
  replaceQueryTok (queryEscape q) tmpl

/-- Template of the spec's example, `http://h/whois?q=` followed by the
placeholder token. -/
def exTemplate : List Char :=
  ['h', 't', 't', 'p', ':', '/', '/', 'h', '/', 'w', 'h', 'o', 'i', 's', '?', 'q', '='] ++ queryTok

/-- Query of the spec's example, `ex ample.com`. -/
def exQuery : List Char :=
  ['e', 'x', ' ', 'a', 'm', 'p', 'l', 'e', '.', 'c', 'o', 'm']

/-- URL the code builds for the example: `http://h/whois?q=ex+ample.com`
(Go's `QueryEscape` encodes the space as a plus sign). -/
def exBuiltURL : List Char :=
  ['h', 't', 't', 'p', ':', '/', '/', 'h', '/', 'w', 'h', 'o', 'i', 's', '?', 'q', '=',
   'e', 'x', '+', 'a', 'm', 'p', 'l', 'e', '.', 'c', 'o', 'm']

/-- Adversarial template: a prefix of the token, a full token, then the
token's closing braces, so that replacing the inner token re-forms a raw
token by juxtaposition. -/
def cexTemplate : List Char :=
  [lbrace, lbrace, 'q', 'u', 'e'] ++ queryTok ++ [rbrace, rbrace]

/- ### Upstream request headers

Embeds the header loop of the handler: each configured pair is added in
order with `req.Header.Add`, except a pair named exactly `Host`, whose
value is assigned to `req.Host` instead (the Go HTTP client sends the
`Host` field as the request authority). -/

/-- One configured header pair. -/
structure HeaderPair where
  name : List Char
  value : List Char
deriving DecidableEq

/-- Outgoing request state touched by the header loop: the Host field
and the ordinary header list (ordered, as the successive `Add` calls
build it). -/
structure UpstreamRequest where
  host : Option (List Char)
  ordinary : List HeaderPair
deriving DecidableEq

/-- Characters of the distinguished header name `Host`. -/
def hostName : List Char := ['H', 'o', 's', 't']

/-- Embedding of the header loop of the handler. -/
def applyHeaders (hs : List HeaderPair) (req : UpstreamRequest) : UpstreamRequest :=
  hs.foldl
    (fun r h =>
      if h.name = hostName then { r with host := some h.value }
      else { r with ordinary := r.ordinary ++ [h] })
    req

/- ### Rate limiting and the connection handler -/

/-- Result of `limiter.Get` (the `limiter.Context` fields the code
reads). -/
structure LimiterContext where
  reached : Bool
  reset : Int
deriving DecidableEq

/-- Embedding of `WhoisServer.shouldLimit` after the key derivation: the
argument is the limiter lookup outcome, `none` when `limiter.Get`
returned an error (in which case the code logs and returns `false`),
`some ctx` otherwise (in which case the code returns `ctx.Reached`). -/
def shouldLimit : Option LimiterContext → Bool
  | none => false
  | some lctx => lctx.reached

/-- Embedding of `strings.LastIndex(s, colon)`: byte index of the last
colon, -1 when there is none. -/
def lastIndexColon : List Char → Int
  | [] => -1
  | c :: rest =>
    if 0 ≤ lastIndexColon rest then lastIndexColon rest + 1
    else if c = ':' then 0 else -1

/-- Embedding of the key derivation `remoteAddr[0:strings.LastIndex(remoteAddr, colon)]`
of `shouldLimit`.  A negative slice bound panics in Go; the panic is
modelled as `none`. -/
def rateKey (remoteAddr : List Char) : Option (List Char) :=
  if lastIndexColon remoteAddr < 0 then none
  else some (remoteAddr.take (lastIndexColon remoteAddr).toNat)

/-- Embedding of `strings.TrimRight(s, crlf-set)`: remove every trailing
CR or LF. -/
def trimRightCRLF (l : List Char) : List Char :=
  (l.reverse.dropWhile (fun c => c = '\r' || c = '\n')).reverse

/-- Message written on a rate-limited connection. -/
def rateLimitedMsg : List Char :=
  ['R', 'a', 't', 'e', ' ', 'l', 'i', 'm', 'i', 't', 'e', 'd', '\r', '\n']

/-- Message written on a rejected query and on a non-200 status. -/
def invalidQueryMsg : List Char :=
  ['I', 'n', 'v', 'a', 'l', 'i', 'd', ' ', 'q', 'u', 'e', 'r', 'y', '\r', '\n']

/-- Message written when the upstream HTTP call fails at transport
level. -/
def upstreamFailedMsg : List Char :=
  ['U', 'p', 's', 't', 'r', 'e', 'a', 'm', ' ', 'q', 'u', 'e', 'r', 'y', ' ',
   'f', 'a', 'i', 'l', 'e', 'd', '\r', '\n']

/-- Message written when reading the upstream body fails. -/
def readBodyFailedMsg : List Char :=
  ['E', 'r', 'r', 'o', 'r', ' ', 'r', 'e', 'a', 'd', 'i', 'n', 'g', ' ',
   'u', 'p', 's', 't', 'r', 'e', 'a', 'm', ' ', 'b', 'o', 'd', 'y', '\r', '\n']

/-- Final CR LF terminator written after a translated body. -/
def crlf : List Char := ['\r', '\n']

/-- Outcome of the upstream HTTP exchange as the handler observes it:
`client.Do` fails, or a response arrives with a status code and a body
read that succeeds (`some body`) or fails (`none`). -/
inductive UpstreamResp where
  | transportError : UpstreamResp
  | response : Nat → Option (List Char) → UpstreamResp
deriving DecidableEq

/-- Observable outcome of one handler run: the writes to the connection
in order, the number of upstream HTTP calls issued, and whether the
handler returned nil (`ok = true`) or an error. -/
structure HandlerOutcome where
  writes : List (List Char)
  upstreamCalls : Nat
  ok : Bool
deriving DecidableEq

/-- Embedding of `WhoisServer.handler`.  Inputs: the limiter lookup
outcome for the client key, the line read from the connection (`none`
models a read error), and the upstream exchange outcome (consulted only
if the handler issues the call). -/
def handler (lres : Option LimiterContext) (line : Option (List Char))
    (resp : UpstreamResp) : HandlerOutcome :=
  if shouldLimit lres then ⟨[rateLimitedMsg], 0, true⟩
  else
    match line with
    | none => ⟨[], 0, false⟩
    | some raw =>
      if commandPatternMatch (trimRightCRLF raw) = false then
        ⟨[invalidQueryMsg], 0, true⟩
      else
        match resp with
        | .transportError => ⟨[upstreamFailedMsg], 1, false⟩
        | .response code body =>
          if code ≠ 200 then ⟨[invalidQueryMsg], 1, false⟩
          else
            match body with
            | none => ⟨[readBodyFailedMsg], 1, false⟩
            | some b => ⟨[translateLineEndings b, crlf], 1, true⟩

/-- Value of the last configured pair named `Host`, if any: the value the
header loop leaves in the request's Host field. -/
def lastHostValue : List HeaderPair → Option (List Char)
  | [] => none
  | h :: hs =>
    match lastHostValue hs with
    | some v => some v
    | none => if h.name = hostName then some h.value else none

/-! ### Helper lemmas -/

theorem lastIndexColon_neg_iff : ∀ s : List Char, lastIndexColon s < 0 ↔ ':' ∉ s := by
  intro s
  induction s with
  | nil => simp [lastIndexColon]
  | cons c rest ih =>
    by_cases hr : 0 ≤ lastIndexColon rest
    · have hmem : ':' ∈ rest := by
        by_contra hmem
        exact absurd (ih.mpr hmem) (by omega)
      constructor
      · intro hlt
        exfalso
        simp [lastIndexColon, hr] at hlt
        omega
      · intro hne
        exact absurd (List.mem_cons_of_mem c hmem) hne
    · push_neg at hr
      have hmem : ':' ∉ rest := ih.mp hr
      have hnr : ¬ (0 ≤ lastIndexColon rest) := by omega
      by_cases hc : c = ':'
      · subst hc
        constructor
        · intro hlt
          exfalso
          simp [lastIndexColon, hnr] at hlt
        · intro hne
          exact absurd (List.mem_cons_self ':' rest) hne
      · constructor
        · intro _ hin
          rcases List.mem_cons.mp hin with h1 | h1
          · exact hc h1.symm
          · exact hmem h1
        · intro _
          simp [lastIndexColon, hnr, hc]

theorem applyHeaders_eq : ∀ (hs : List HeaderPair) (req : UpstreamRequest),
    applyHeaders hs req =
      ⟨match lastHostValue hs with
        | some v => some v
        | none => req.host,
       req.ordinary ++ hs.filter (fun h => !(h.name == hostName))⟩ := by
  intro hs
  induction hs with
  | nil => intro req; simp [applyHeaders, lastHostValue]
  | cons h hs ih =>
    intro req
    have step : applyHeaders (h :: hs) req =
        applyHeaders hs
          (if h.name = hostName then { req with host := some h.value }
           else { req with ordinary := req.ordinary ++ [h] }) := by
      simp [applyHeaders, List.foldl_cons]
    rw [step]
    by_cases hn : h.name = hostName
    · rw [ih]
      simp [lastHostValue, hn, List.filter_cons]
      split
      · rfl
      · rfl
    · rw [ih]
      have hb : (h.name == hostName) = false := by
        simpa using hn
      simp [lastHostValue, hn, List.filter_cons, hb]
      cases hLV : lastHostValue hs <;> simp [hLV]

theorem translate_head : ∀ l : List Char,
    (translateLineEndings l).head? = l.head? := by
  intro l
  induction l using translateLineEndings.induct with
  | case1 => rfl
  | case2 c => rfl
  | case3 a b rest h ih => simp [translateLineEndings, h]
  | case4 a b rest h ih => simp [translateLineEndings, h]

theorem noBareLFAux_irrel : ∀ (l : List Char) (p q : Char),
    l.head? ≠ some '\n' → noBareLFAux p l = noBareLFAux q l := by
  intro l p q h
  cases l with
  | nil => rfl
  | cons c rest =>
    have hc : ¬ c = '\n' := by
      intro hc
      exact h (by simp [hc])
    simp [noBareLFAux, hc]

theorem noConsecLF_tail : ∀ (x : Char) (xs : List Char),
    noConsecLF (x :: xs) = true → noConsecLF xs = true := by
  intro x xs h
  cases xs with
  | nil => rfl
  | cons b rest =>
    by_cases hx : x = '\n' ∧ b = '\n'
    · simp [noConsecLF, hx] at h
    · simpa [noConsecLF, hx] using h

theorem noConsecLF_head_tail : ∀ (rest : List Char),
    noConsecLF ('\n' :: rest) = true → rest.head? ≠ some '\n' := by
  intro rest h
  cases rest with
  | nil => simp
  | cons r0 r' =>
    intro hh
    have hr0 : r0 = '\n' := by simpa using hh
    simp [noConsecLF, hr0] at h

theorem translate_aux_cr : ∀ l : List Char,
    noConsecLF l = true → noBareLFAux '\r' (translateLineEndings l) = true := by
  intro l
  induction l using translateLineEndings.induct with
  | case1 => intro _; rfl
  | case2 c => intro _; simp [translateLineEndings, noBareLFAux]
  | case3 a b rest h ih =>
    intro hcl
    have hb : b = '\n' := h.2
    have htl : noConsecLF (b :: rest) = true := noConsecLF_tail _ _ hcl
    have hrest : noConsecLF rest = true := noConsecLF_tail _ _ htl
    have hhd : rest.head? ≠ some '\n' := by
      rw [hb] at htl
      exact noConsecLF_head_tail rest htl
    have hT : (translateLineEndings rest).head? ≠ some '\n' := by
      rw [translate_head rest]
      exact hhd
    have := ih hrest
    simp [translateLineEndings, h, noBareLFAux]
    rw [noBareLFAux_irrel _ '\n' '\r' hT]
    exact this
  | case4 a b rest h ih =>
    intro hcl
    have htl : noConsecLF (b :: rest) = true := noConsecLF_tail _ _ hcl
    have ihb := ih htl
    have hTb : (translateLineEndings (b :: rest)).head? = some b := by
      rw [translate_head (b :: rest)]; rfl
    simp [translateLineEndings, h, noBareLFAux]
    by_cases hbn : b = '\n'
    · have ha : a = '\r' := by
        by_contra har
        exact h ⟨har, hbn⟩
      rw [ha]
      exact ihb
    · rw [noBareLFAux_irrel _ a '\r' (by rw [hTb]; simp [hbn])]
      exact ihb

theorem noPairLF_of_aux : ∀ (l : List Char) (p : Char),
    noBareLFAux p l = true → noPairLF l = true := by
  intro l
  induction l with
  | nil => intro p _; rfl
  | cons a rest ih =>
    intro p h
    cases rest with
    | nil => rfl
    | cons b r' =>
      have hstep : noBareLFAux a (b :: r') = true := by
        by_cases hc : a = '\n' ∧ p ≠ '\r'
        · simp [noBareLFAux, hc] at h
        · simpa [noBareLFAux, hc] using h
      have hcond : ¬ (a ≠ '\r' ∧ b = '\n') := by
        intro ⟨har, hbn⟩
        by_cases hc : a = '\n' ∧ p ≠ '\r'
        · simp [noBareLFAux, hc] at h
        · have : noBareLFAux a (b :: r') = true := by simpa [noBareLFAux, hc] using h
          simp [noBareLFAux, hbn, har] at this
      have := ih a hstep
      simpa [noPairLF, hcond] using this

theorem noPairLF_of_noBareLF : ∀ l : List Char,
    noBareLF l = true → noPairLF l = true := by
  intro l h
  cases l with
  | nil => rfl
  | cons c rest =>
    by_cases hc : c = '\n'
    · simp [noBareLF, hc] at h
    · have haux : noBareLFAux c rest = true := by simpa [noBareLF, hc] using h
      cases rest with
      | nil => rfl
      | cons b r' =>
        have hcond : ¬ (c ≠ '\r' ∧ b = '\n') := by
          intro ⟨hcr, hbn⟩
          simp [noBareLFAux, hbn, hcr] at haux
        have := noPairLF_of_aux (b :: r') c haux
        simpa [noPairLF, hcond] using this

theorem translate_id_of_noPair : ∀ l : List Char,
    noPairLF l = true → translateLineEndings l = l := by
  intro l
  induction l using translateLineEndings.induct with
  | case1 => intro _; rfl
  | case2 c => intro _; rfl
  | case3 a b rest h ih =>
    intro hp
    simp [noPairLF, h] at hp
  | case4 a b rest h ih =>
    intro hp
    have htl : noPairLF (b :: rest) = true := by
      by_cases hc : a ≠ '\r' ∧ b = '\n'
      · exact absurd hc h
      · simpa [noPairLF, hc] using hp
    simp [translateLineEndings, h, ih htl]

/-! ### Claim theorems -/

/-- Claim C2, counterexample: the claim says every LF not already
preceded by CR is replaced by CR LF (equivalently, every LF of the
output is preceded by CR), but a body consisting of a single LF is left
unchanged, because the pattern `([^\r])\n` needs a preceding byte. -/
theorem translateLineEndings_bare_lf_cex :
    translateLineEndings ['\n'] = ['\n'] ∧
    noBareLF (translateLineEndings ['\n']) = false := by
  decide

/-- Claim C2 (amended): the translator replaces, scanning left to right
without overlap, every LF immediately preceded by a non-CR byte, and
leaves text whose LFs are all CR-preceded unchanged; the output
guarantee that every LF is preceded by CR holds for bodies that do not
begin with LF and contain no two consecutive LFs. -/
theorem translateLineEndings_amended :
    (∀ l : List Char, noBareLF l = true → translateLineEndings l = l) ∧
    (∀ l : List Char, l.head? ≠ some '\n' → noConsecLF l = true →
      noBareLF (translateLineEndings l) = true) := by
  constructor
  · intro l h
    exact translate_id_of_noPair l (noPairLF_of_noBareLF l h)
  · intro l hh hc
    have haux := translate_aux_cr l hc
    cases hT : translateLineEndings l with
    | nil => rfl
    | cons c r =>
      have hch : l.head? = some c := by rw [← translate_head l, hT]; rfl
      have hcn : ¬ c = '\n' := by
        intro h
        exact hh (by rw [hch, h])
      rw [hT] at haux
      have hr : noBareLFAux c r = true := by
        simpa [noBareLFAux, hcn] using haux
      simpa [noBareLF, hcn] using hr

/-- Witness for the amended C2 theorem at concrete inputs. -/
theorem translateLineEndings_amended_witness :
    (noBareLF ['x', '\r', '\n'] = true ∧
      translateLineEndings ['x', '\r', '\n'] = ['x', '\r', '\n']) ∧
    ((['a', '\n', 'b'] : List Char).head? ≠ some '\n' ∧
      noConsecLF ['a', '\n', 'b'] = true ∧
      noBareLF (translateLineEndings ['a', '\n', 'b']) = true) :=
  ⟨⟨by decide, translateLineEndings_amended.1 _ (by decide)⟩,
   ⟨by decide, by decide, translateLineEndings_amended.2 _ (by decide) (by decide)⟩⟩

/-- Claim C4: every configured header pair is attached in configuration
order, except pairs named exactly `Host`, which are redirected to the
request's Host field (the last one wins) and never appear among the
ordinary headers. -/
theorem applyHeaders_host_special :
    ∀ hs : List HeaderPair,
      (applyHeaders hs ⟨none, []⟩).ordinary = hs.filter (fun h => !(h.name == hostName)) ∧
      (applyHeaders hs ⟨none, []⟩).host = lastHostValue hs ∧
      ((applyHeaders hs ⟨none, []⟩).ordinary.all (fun h => !(h.name == hostName))) = true := by
  intro hs
  rw [applyHeaders_eq]
  refine ⟨by simp, ?_, ?_⟩
  · cases hLV : lastHostValue hs <;> simp
  · simp only [List.nil_append]
    exact List.all_eq_true.mpr (fun h hm => (List.mem_filter.mp hm).2)

/-- Claim C5: a rate-limited connection gets exactly the rate-limited
message, and an invalid query gets exactly the invalid-query message; in
both cases no upstream call is made and the handler returns nil. -/
theorem handler_rejection_no_upstream :
    (∀ (lres : Option LimiterContext) (line : Option (List Char)) (resp : UpstreamResp),
      shouldLimit lres = true → handler lres line resp = ⟨[rateLimitedMsg], 0, true⟩) ∧
    (∀ (lres : Option LimiterContext) (raw : List Char) (resp : UpstreamResp),
      shouldLimit lres = false → commandPatternMatch (trimRightCRLF raw) = false →
      handler lres (some raw) resp = ⟨[invalidQueryMsg], 0, true⟩) := by
  constructor
  · intro lres line resp h
    simp [handler, h]
  · intro lres raw resp h1 h2
    simp [handler, h1, h2]

/-- Witness for the C5 theorem at concrete inputs. -/
theorem handler_rejection_no_upstream_witness :
    (shouldLimit (some ⟨true, 7⟩) = true ∧
      handler (some ⟨true, 7⟩) (some ['a']) .transportError = ⟨[rateLimitedMsg], 0, true⟩) ∧
    (shouldLimit none = false ∧
      commandPatternMatch (trimRightCRLF ['.', '.']) = false ∧
      handler none (some ['.', '.']) .transportError = ⟨[invalidQueryMsg], 0, true⟩) :=
  ⟨⟨by decide, handler_rejection_no_upstream.1 _ _ _ (by decide)⟩,
   ⟨by decide, by decide, handler_rejection_no_upstream.2 _ _ _ (by decide) (by decide)⟩⟩

/-- Claim C6: on the upstream exchange, transport failure writes the
upstream-failed message and returns the error; any non-200 status writes
the invalid-query message and returns an error; a body-read failure
writes the body-read message and returns the error; success is exactly
status 200 with a readable body. -/
theorem handler_upstream_failure_modes :
    ∀ (lres : Option LimiterContext) (raw : List Char),
      shouldLimit lres = false → commandPatternMatch (trimRightCRLF raw) = true →
      handler lres (some raw) .transportError = ⟨[upstreamFailedMsg], 1, false⟩ ∧
      (∀ (code : Nat) (body : Option (List Char)), code ≠ 200 →
        handler lres (some raw) (.response code body) = ⟨[invalidQueryMsg], 1, false⟩) ∧
      handler lres (some raw) (.response 200 none) = ⟨[readBodyFailedMsg], 1, false⟩ ∧
      (∀ body : List Char, (handler lres (some raw) (.response 200 (some body))).ok = true) := by
  intro lres raw h1 h2
  refine ⟨by simp [handler, h1, h2], ?_, by simp [handler, h1, h2], ?_⟩
  · intro code body hc
    simp [handler, h1, h2, hc]
  · intro body
    simp [handler, h1, h2]

/-- Witness for the C6 theorem at concrete inputs. -/
theorem handler_upstream_failure_modes_witness :
    shouldLimit none = false ∧
    commandPatternMatch (trimRightCRLF ['e', 'x', '.', 'c', 'o', 'm', '\n']) = true ∧
    (500 : Nat) ≠ 200 ∧
    handler none (some ['e', 'x', '.', 'c', 'o', 'm', '\n']) (.response 500 none) =
      ⟨[invalidQueryMsg], 1, false⟩ :=
  ⟨by decide, by decide, by decide,
   (handler_upstream_failure_modes none _ (by decide) (by decide)).2.1 500 none (by decide)⟩

/-- Claim C7: a successful upstream response is written as the
line-translated body followed by one final CR LF; translation leaves
CR-LF-only text unchanged, and the two concrete examples of the spec
evaluate as claimed. -/
theorem handler_success_response :
    (∀ (lres : Option LimiterContext) (raw body : List Char),
      shouldLimit lres = false → commandPatternMatch (trimRightCRLF raw) = true →
      handler lres (some raw) (.response 200 (some body)) =
        ⟨[translateLineEndings body, crlf], 1, true⟩) ∧
    (∀ l : List Char, noBareLF l = true → translateLineEndings l = l) ∧
    translateLineEndings ['a', '\r', '\n', 'b', '\r', '\n'] = ['a', '\r', '\n', 'b', '\r', '\n'] ∧
    translateLineEndings ['a', '\n', 'b', '\n'] ++ crlf =
      ['a', '\r', '\n', 'b', '\r', '\n', '\r', '\n'] := by
  refine ⟨?_, ?_, by decide, by decide⟩
  · intro lres raw body h1 h2
    simp [handler, h1, h2]
  · intro l h
    exact translate_id_of_noPair l (noPairLF_of_noBareLF l h)

/-- Witness for the C7 theorem at concrete inputs. -/
theorem handler_success_response_witness :
    shouldLimit none = false ∧
    commandPatternMatch (trimRightCRLF ['e', 'x', '.', 'c', 'o', 'm', '\n']) = true ∧
    handler none (some ['e', 'x', '.', 'c', 'o', 'm', '\n']) (.response 200 (some ['D', '\n'])) =
      ⟨[translateLineEndings ['D', '\n'], crlf], 1, true⟩ ∧
    noBareLF ['q', '\r', '\n'] = true ∧
    translateLineEndings ['q', '\r', '\n'] = ['q', '\r', '\n'] :=
  ⟨by decide, by decide,
   handler_success_response.1 none _ _ (by decide) (by decide),
   by decide, handler_success_response.2.1 _ (by decide)⟩

/-- Claim C9: an error from the limiter lookup is fail-open: the handler
treats the client as not limited and runs the normal pipeline exactly as
if the limiter had allowed the key. -/
theorem shouldLimit_error_fail_open :
    shouldLimit none = false ∧
    ∀ (r : Int) (line : Option (List Char)) (resp : UpstreamResp),
      handler none line resp = handler (some ⟨false, r⟩) line resp :=
  ⟨rfl, fun _ _ _ => rfl⟩

/-- Claim C10: the rate-limit key is the remote address up to its last
colon; with no colon in the address the slice bound is negative and the
code panics (modelled as `none`) instead of producing a key. -/
theorem rateKey_requires_colon :
    ∀ s : List Char,
      (rateKey s = none ↔ ':' ∉ s) ∧
      (':' ∈ s → rateKey s = some (s.take (lastIndexColon s).toNat)) := by
  intro s
  by_cases hlt : lastIndexColon s < 0
  · have hmem : ':' ∉ s := (lastIndexColon_neg_iff s).mp hlt
    constructor
    · simp [rateKey, hlt, hmem]
    · intro hin
      exact absurd hin hmem
  · have hmem : ':' ∈ s := by
      by_contra hm
      exact hlt ((lastIndexColon_neg_iff s).mpr hm)
    constructor
    · simp [rateKey, hlt, hmem]
    · intro _
      simp [rateKey, hlt]

/-- Witness for the C10 theorem at a concrete address. -/
theorem rateKey_requires_colon_witness :
    ':' ∈ ['1', ':', '2', ':', '8', '0'] ∧
    rateKey ['1', ':', '2', ':', '8', '0'] =
      some ((['1', ':', '2', ':', '8', '0'] : List Char).take
        (lastIndexColon ['1', ':', '2', ':', '8', '0']).toNat) :=
  ⟨by decide, (rateKey_requires_colon _).2 (by decide)⟩

/-! ### Lemmas for the validator characterization -/

theorem isAlnum_ne_dot : ∀ c : Char, isAlnum c = true → c ≠ '.' := by
  intro c h he
  rw [he] at h
  exact absurd h (by decide)

theorem isLabelBody_ne_dot : ∀ c : Char, isLabelBody c = true → c ≠ '.' := by
  intro c h he
  rw [he] at h
  exact absurd h (by decide)

theorem isAlpha_ne_dot : ∀ c : Char, c.isAlpha = true → c ≠ '.' := by
  intro c h he
  rw [he] at h
  exact absurd h (by decide)

theorem splitOnDot_ne_nil : ∀ l : List Char, splitOnDot l ≠ [] := by
  intro l
  cases l with
  | nil => simp [splitOnDot]
  | cons c rest =>
    by_cases hc : c = '.'
    · simp [splitOnDot, hc]
    · simp only [splitOnDot, if_neg hc]
      cases splitOnDot rest <;> simp

theorem splitOnDot_no_dot : ∀ l : List Char, '.' ∉ l → splitOnDot l = [l] := by
  intro l
  induction l with
  | nil => intro _; rfl
  | cons c rest ih =>
    intro h
    have hc : ¬ c = '.' := fun he => h (by rw [he]; exact List.mem_cons_self _ _)
    have hr : '.' ∉ rest := fun hm => h (List.mem_cons_of_mem c hm)
    simp only [splitOnDot, if_neg hc, ih hr]

theorem splitOnDot_append : ∀ (a r : List Char), '.' ∉ a →
    splitOnDot (a ++ '.' :: r) = a :: splitOnDot r := by
  intro a
  induction a with
  | nil => intro r _; simp [splitOnDot]
  | cons c a' ih =>
    intro r h
    have hc : ¬ c = '.' := fun he => h (by rw [he]; exact List.mem_cons_self _ _)
    have ha : '.' ∉ a' := fun hm => h (List.mem_cons_of_mem c hm)
    simp only [List.cons_append, splitOnDot, if_neg hc, List.append_eq, ih r ha]

theorem splitOnDot_eq_single : ∀ (s a : List Char),
    splitOnDot s = [a] → s = a ∧ '.' ∉ a := by
  intro s
  induction s with
  | nil =>
    intro a h
    simp [splitOnDot] at h
    subst h
    exact ⟨rfl, by simp⟩
  | cons c rest ih =>
    intro a h
    by_cases hc : c = '.'
    · simp only [splitOnDot, if_pos hc] at h
      have := splitOnDot_ne_nil rest
      simp at h
      exact absurd h.2 this
    · simp only [splitOnDot, if_neg hc] at h
      cases hsp : splitOnDot rest with
      | nil => exact absurd hsp (splitOnDot_ne_nil rest)
      | cons p ps =>
        rw [hsp] at h
        simp at h
        rcases h with ⟨ha, hps⟩
        rcases ih p (by rw [hsp, hps]) with ⟨hrest, hdp⟩
        constructor
        · rw [← ha, hrest]
        · rw [← ha]
          intro hm
          rcases List.mem_cons.mp hm with h1 | h1
          · exact hc h1.symm
          · exact hdp h1

theorem splitOnDot_eq_pair : ∀ (s a b : List Char),
    splitOnDot s = [a, b] → s = a ++ '.' :: b ∧ '.' ∉ a ∧ '.' ∉ b := by
  intro s
  induction s with
  | nil => intro a b h; simp [splitOnDot] at h
  | cons c rest ih =>
    intro a b h
    by_cases hc : c = '.'
    · simp only [splitOnDot, if_pos hc] at h
      simp at h
      rcases h with ⟨ha, hrest⟩
      rcases splitOnDot_eq_single rest b hrest with ⟨hr, hdb⟩
      subst hc
      subst ha
      exact ⟨by simp [hr], by simp, hdb⟩
    · simp only [splitOnDot, if_neg hc] at h
      cases hsp : splitOnDot rest with
      | nil => exact absurd hsp (splitOnDot_ne_nil rest)
      | cons p ps =>
        rw [hsp] at h
        simp at h
        rcases h with ⟨ha, hps⟩
        rcases ih p b (by rw [hsp, hps]) with ⟨hrest, hdp, hdb⟩
        refine ⟨?_, ?_, hdb⟩
        · rw [← ha, hrest]
          rfl
        · rw [← ha]
          intro hm
          rcases List.mem_cons.mp hm with h1 | h1
          · exact hc h1.symm
          · exact hdp h1

theorem splitOnDot_eq_triple : ∀ (s a b c : List Char),
    splitOnDot s = [a, b, c] →
      s = a ++ '.' :: (b ++ '.' :: c) ∧ '.' ∉ a ∧ '.' ∉ b ∧ '.' ∉ c := by
  intro s
  induction s with
  | nil => intro a b c h; simp [splitOnDot] at h
  | cons x rest ih =>
    intro a b c h
    by_cases hx : x = '.'
    · simp only [splitOnDot, if_pos hx] at h
      simp at h
      rcases h with ⟨ha, hrest⟩
      rcases splitOnDot_eq_pair rest b c hrest with ⟨hr, hdb, hdc⟩
      subst hx
      subst ha
      exact ⟨by simp [hr], by simp, hdb, hdc⟩
    · simp only [splitOnDot, if_neg hx] at h
      cases hsp : splitOnDot rest with
      | nil => exact absurd hsp (splitOnDot_ne_nil rest)
      | cons p ps =>
        rw [hsp] at h
        simp at h
        rcases h with ⟨ha, hps⟩
        rcases ih p b c (by rw [hsp, hps]) with ⟨hrest, hdp, hdb, hdc⟩
        refine ⟨?_, ?_, hdb, hdc⟩
        · rw [← ha, hrest]
          rfl
        · rw [← ha]
          intro hm
          rcases List.mem_cons.mp hm with h1 | h1
          · exact hx h1.symm
          · exact hdp h1

theorem matchesInner_iff : ∀ r : List Char, matchesInner r = true ↔
    ∃ mid c1, r = mid ++ [c1] ∧ (∀ x ∈ mid, isLabelBody x = true) ∧ isAlnum c1 = true := by
  intro r
  induction r with
  | nil =>
    constructor
    · intro h
      simp [matchesInner] at h
    · rintro ⟨mid, c1, heq, -, -⟩
      have := congrArg List.length heq
      simp at this
  | cons c rest ih =>
    cases rest with
    | nil =>
      constructor
      · intro h
        exact ⟨[], c, rfl, by simp, by simpa [matchesInner] using h⟩
      · rintro ⟨mid, c1, heq, hmid, h1⟩
        cases mid with
        | nil =>
          simp at heq
          simpa [matchesInner, heq] using h1
        | cons m ms =>
          have := congrArg List.length heq
          simp at this
    | cons c' r' =>
      constructor
      · intro h
        have h2 : isLabelBody c = true ∧ matchesInner (c' :: r') = true := by
          simpa [matchesInner, Bool.and_eq_true] using h
        rcases ih.mp h2.2 with ⟨mid, c1, heq, hmid, h1⟩
        refine ⟨c :: mid, c1, by simp [heq], ?_, h1⟩
        intro x hx
        rcases List.mem_cons.mp hx with h3 | h3
        · rw [h3]; exact h2.1
        · exact hmid x h3
      · rintro ⟨mid, c1, heq, hmid, h1⟩
        cases mid with
        | nil =>
          have := congrArg List.length heq
          simp at this
        | cons m ms =>
          simp at heq
          rcases heq with ⟨hcm, hrest⟩
          have hin : matchesInner (c' :: r') = true := by
            refine ih.mpr ⟨ms, c1, ?_, ?_, h1⟩
            · exact hrest
            · intro x hx
              exact hmid x (List.mem_cons_of_mem m hx)
          have hlb : isLabelBody c = true := by
            rw [hcm]
            exact hmid m (List.mem_cons_self _ _)
          simp [matchesInner, hlb, hin]

theorem matchesSLD_iff : ∀ l : List Char, matchesSLD l = true ↔
    ∃ c0 mid c1, l = c0 :: (mid ++ [c1]) ∧ isAlnum c0 = true ∧ mid.length ≤ 61 ∧
      (∀ x ∈ mid, isLabelBody x = true) ∧ isAlnum c1 = true := by
  intro l
  cases l with
  | nil =>
    constructor
    · intro h
      simp [matchesSLD] at h
    · rintro ⟨c0, mid, c1, heq, -⟩
      exact absurd heq (by simp)
  | cons c rest =>
    simp only [matchesSLD, Bool.and_eq_true, decide_eq_true_eq]
    constructor
    · rintro ⟨⟨h0, hlen⟩, hin⟩
      rcases (matchesInner_iff rest).mp hin with ⟨mid, c1, heq, hmid, h1⟩
      refine ⟨c, mid, c1, by rw [heq], h0, ?_, hmid, h1⟩
      rw [heq] at hlen
      simp at hlen
      omega
    · rintro ⟨c0, mid, c1, heq, h0, hlen, hmid, h1⟩
      have hc : c = c0 := by
        injection heq
      have hrest : rest = mid ++ [c1] := by
        injection heq with h h'
      subst hc
      subst hrest
      refine ⟨⟨h0, by simp; omega⟩, (matchesInner_iff _).mpr ⟨mid, c1, rfl, hmid, h1⟩⟩

theorem matchesTLD_iff : ∀ l : List Char, matchesTLD l = true ↔
    2 ≤ l.length ∧ ∀ c ∈ l, c.isAlpha = true := by
  intro l
  simp [matchesTLD, List.all_eq_true]

theorem sld_no_dot : ∀ (c0 c1 : Char) (mid : List Char),
    isAlnum c0 = true → (∀ x ∈ mid, isLabelBody x = true) → isAlnum c1 = true →
    '.' ∉ c0 :: (mid ++ [c1]) := by
  intro c0 c1 mid h0 hmid h1 hmem
  rcases List.mem_cons.mp hmem with h | h
  · exact isAlnum_ne_dot c0 h0 h.symm
  · rcases List.mem_append.mp h with h2 | h2
    · exact isLabelBody_ne_dot _ (hmid _ h2) rfl
    · have : '.' = c1 := by simpa using h2
      exact isAlnum_ne_dot c1 h1 this.symm

/-- Claim C1, counterexample: the claim says the validator accepts one
or more labels followed by a TLD, and names `a-b.co.uk.` as accepted;
the regex of the code admits exactly two labels, so `a-b.co.uk.` is
rejected. -/
theorem commandPattern_multilabel_cex :
    commandPatternMatch ['a', '-', 'b', '.', 'c', 'o', '.', 'u', 'k', '.'] = false := by
  decide

/-- Claim C1 (amended): the validator accepts exactly the strings of the
form `L.T` or `L.T.` where `L` is 2 to 63 alphanumerics or hyphens
beginning and ending with an alphanumeric, and `T` is at least two ASCII
letters; in particular it accepts `example.com` and rejects `..`,
`-bad.com` and `toolong...`. -/
theorem commandPattern_characterization :
    (∀ s : List Char, commandPatternMatch s = true ↔ commandPatternLang s) ∧
    commandPatternMatch ['e', 'x', 'a', 'm', 'p', 'l', 'e', '.', 'c', 'o', 'm'] = true ∧
    commandPatternMatch ['.', '.'] = false ∧
    commandPatternMatch ['-', 'b', 'a', 'd', '.', 'c', 'o', 'm'] = false ∧
    commandPatternMatch ['t', 'o', 'o', 'l', 'o', 'n', 'g', '.', '.', '.'] = false := by
  refine ⟨?_, by decide, by decide, by decide, by decide⟩
  intro s
  constructor
  · intro h
    unfold commandPatternMatch at h
    rcases hsp : splitOnDot s with _ | ⟨a, _ | ⟨b, _ | ⟨c, _ | ⟨d, tail⟩⟩⟩⟩
    all_goals rw [hsp] at h
    · simp at h
    · simp at h
    · have hab : matchesSLD a = true ∧ matchesTLD b = true := by
        simpa [Bool.and_eq_true] using h
      rcases splitOnDot_eq_pair s a b hsp with ⟨hs, -, -⟩
      rcases (matchesSLD_iff a).mp hab.1 with ⟨c0, mid, c1, ha, h0, hlen, hmid, h1⟩
      rcases (matchesTLD_iff b).mp hab.2 with ⟨hbl, hba⟩
      exact ⟨c0, mid, c1, b, [], by rw [hs, ha]; simp, h0, hlen, hmid, h1, hbl, hba,
        Or.inl rfl⟩
    · have habc : matchesSLD a = true ∧ matchesTLD b = true ∧ c.isEmpty = true := by
        simpa [Bool.and_eq_true, and_assoc] using h
      have hc : c = [] := by
        cases c with
        | nil => rfl
        | cons x xs => simp at habc
      rcases splitOnDot_eq_triple s a b c hsp with ⟨hs, -, -, -⟩
      subst hc
      rcases (matchesSLD_iff a).mp habc.1 with ⟨c0, mid, c1, ha, h0, hlen, hmid, h1⟩
      rcases (matchesTLD_iff b).mp habc.2.1 with ⟨hbl, hba⟩
      refine ⟨c0, mid, c1, b, ['.'], ?_, h0, hlen, hmid, h1, hbl, hba, Or.inr rfl⟩
      rw [hs, ha]
    · simp at h
  · rintro ⟨c0, mid, c1, t, d, hs, h0, hlen, hmid, h1, htl, hta, hd⟩
    have hano : '.' ∉ c0 :: (mid ++ [c1]) := sld_no_dot c0 c1 mid h0 hmid h1
    have htno : '.' ∉ t := fun hm => isAlpha_ne_dot '.' (hta '.' hm) rfl
    have hsld : matchesSLD (c0 :: (mid ++ [c1])) = true :=
      (matchesSLD_iff _).mpr ⟨c0, mid, c1, rfl, h0, hlen, hmid, h1⟩
    have htld : matchesTLD t = true := (matchesTLD_iff t).mpr ⟨htl, hta⟩
    rcases hd with hd | hd
    · subst hd
      have hsp : splitOnDot s = [c0 :: (mid ++ [c1]), t] := by
        rw [hs]
        simp only [List.append_nil]
        rw [splitOnDot_append _ _ hano, splitOnDot_no_dot t htno]
      unfold commandPatternMatch
      rw [hsp]
      simp [hsld, htld]
    · subst hd
      have hsp : splitOnDot s = [c0 :: (mid ++ [c1]), t, []] := by
        rw [hs]
        have hts : t ++ ['.'] = t ++ '.' :: ([] : List Char) := rfl
        rw [hts, splitOnDot_append _ _ hano, splitOnDot_append _ _ htno]
        rfl
      unfold commandPatternMatch
      rw [hsp]
      simp [hsld, htld]

/-! ### Lemmas for the URL builder -/

theorem isPrefixOf_eq_true_iff : ∀ p l : List Char, p.isPrefixOf l = true ↔ p <+: l :=
  fun _ _ => List.isPrefixOf_iff_prefix

theorem prefix_comparable {l p q : List Char} (h1 : p <+: l) (h2 : q <+: l) :
    p <+: q ∨ q <+: p :=
  List.prefix_or_prefix_of_prefix h1 h2

theorem replaceTokAux_fuel : ∀ (rep : List Char) (f1 f2 : Nat) (s : List Char),
    s.length ≤ f1 → s.length ≤ f2 → replaceTokAux rep f1 s = replaceTokAux rep f2 s := by
  intro rep f1
  induction f1 with
  | zero =>
    intro f2 s h1 _
    have hs : s = [] := List.length_eq_zero.mp (Nat.le_antisymm h1 (Nat.zero_le _))
    subst hs
    cases f2 <;> rfl
  | succ f ih =>
    intro f2 s h1 h2
    cases s with
    | nil => cases f2 <;> rfl
    | cons c rest =>
      cases f2 with
      | zero => simp at h2
      | succ f2' =>
        simp only [replaceTokAux]
        by_cases hpre : queryTok.isPrefixOf (c :: rest) = true
        · simp only [if_pos hpre]
          congr 1
          apply ih
          · simp only [List.length_drop, List.length_cons]
            simp only [List.length_cons] at h1
            omega
          · simp only [List.length_drop, List.length_cons]
            simp only [List.length_cons] at h2
            omega
        · simp only [if_neg hpre]
          congr 1
          apply ih
          · simp only [List.length_cons] at h1
            omega
          · simp only [List.length_cons] at h2
            omega

theorem replaceQueryTok_cons (rep : List Char) (c : Char) (rest : List Char) :
    replaceQueryTok rep (c :: rest) =
      if queryTok.isPrefixOf (c :: rest) then
        rep ++ replaceQueryTok rep ((c :: rest).drop 9)
      else c :: replaceQueryTok rep rest := by
  have h1 : replaceQueryTok rep (c :: rest) =
      if queryTok.isPrefixOf (c :: rest) then
        rep ++ replaceTokAux rep rest.length ((c :: rest).drop 9)
      else c :: replaceTokAux rep rest.length rest := by
    simp only [replaceQueryTok, List.length_cons, replaceTokAux]
  rw [h1]
  by_cases hpre : queryTok.isPrefixOf (c :: rest) = true
  · simp only [if_pos hpre]
    congr 1
    apply replaceTokAux_fuel
    · simp only [List.length_drop, List.length_cons]
      omega
    · exact Nat.le_refl _
  · simp only [if_neg hpre]
    rfl

theorem braceFree_not_mem : ∀ l : List Char, braceFree l = true →
    lbrace ∉ l ∧ rbrace ∉ l := by
  intro l h
  rw [braceFree, List.all_eq_true] at h
  constructor
  · intro hm
    have := h _ hm
    simp at this
  · intro hm
    have := h _ hm
    simp at this

theorem containsSub_append_skip :
    ∀ (rep R : List Char), lbrace ∉ rep →
      containsSub queryTok (rep ++ R) = containsSub queryTok R := by
  intro rep
  induction rep with
  | nil => intro R _; simp
  | cons x rep' ih =>
    intro R h
    have hx : ¬ x = lbrace := fun he => h (by rw [he]; exact List.mem_cons_self _ _)
    have h' : lbrace ∉ rep' := fun hm => h (List.mem_cons_of_mem x hm)
    have hpre : queryTok.isPrefixOf (x :: (rep' ++ R)) = false := by
      rw [Bool.eq_false_iff]
      intro hcon
      have hp := (isPrefixOf_eq_true_iff _ _).mp hcon
      have hq1 : queryTok = lbrace :: queryTok.drop 1 := rfl
      rw [hq1, List.cons_prefix_cons] at hp
      exact hx hp.1.symm
    rw [List.cons_append]
    rw [show containsSub queryTok (x :: (rep' ++ R)) =
      (queryTok.isPrefixOf (x :: (rep' ++ R)) || containsSub queryTok (rep' ++ R)) from rfl]
    rw [hpre, Bool.false_or]
    exact ih R h'

theorem containsSub_of_front : ∀ (l p : List Char), p <+: l → containsSub p l = true := by
  intro l
  cases l with
  | nil =>
    intro p h
    rw [List.prefix_nil] at h
    subst h
    rfl
  | cons c rest =>
    intro p h
    have hb : p.isPrefixOf (c :: rest) = true := (isPrefixOf_eq_true_iff _ _).mpr h
    rw [show containsSub p (c :: rest) =
      (p.isPrefixOf (c :: rest) || containsSub p rest) from rfl]
    rw [hb, Bool.true_or]

theorem containsSub_drop : ∀ (l : List Char) (i : Nat) (p : List Char),
    containsSub p (l.drop i) = true → containsSub p l = true := by
  intro l
  induction l with
  | nil => intro i p h; simpa using h
  | cons c rest ih =>
    intro i p h
    cases i with
    | zero => simpa using h
    | succ j =>
      have hr : containsSub p rest = true := ih j p (by simpa using h)
      rw [show containsSub p (c :: rest) =
        (p.isPrefixOf (c :: rest) || containsSub p rest) from rfl]
      rw [hr, Bool.or_true]

theorem prefix_strip_rbraces : ∀ (w p : List Char), rbrace ∉ p →
    p <+: w ++ [rbrace, rbrace] → p <+: w := by
  intro w
  induction w with
  | nil =>
    intro p hnb h
    cases p with
    | nil => exact ⟨[], rfl⟩
    | cons c p' =>
      rw [List.nil_append, List.cons_prefix_cons] at h
      exact absurd (by rw [h.1]; exact List.mem_cons_self _ _) hnb
  | cons a w' ih =>
    intro p hnb h
    cases p with
    | nil => exact ⟨a :: w', rfl⟩
    | cons c p' =>
      rw [List.cons_append, List.cons_prefix_cons] at h
      rcases h with ⟨hca, h'⟩
      have hnb' : rbrace ∉ p' := fun hm => hnb (List.mem_cons_of_mem c hm)
      exact List.cons_prefix_cons.mpr ⟨hca, ih p' hnb' h'⟩

theorem contains_word_of_prefix_drop : ∀ (p : List Char) (j : Nat),
    p <+: queryWord.drop j → containsSub p queryWord = true :=
  fun p j h => containsSub_drop queryWord j p (containsSub_of_front _ p h)

theorem head_mem_of_front : ∀ (p : List Char) (a : Char) (l : List Char),
    p ≠ [] → p <+: a :: l → a ∈ p := by
  intro p a l hne h
  cases p with
  | nil => exact absurd rfl hne
  | cons x p' =>
    rw [List.cons_prefix_cons] at h
    rw [← h.1]
    exact List.mem_cons_self _ _

theorem replace_tail_prefix_back
    (rep : List Char) (hne : rep ≠ []) (hbf : braceFree rep = true)
    (hq : containsSub rep queryWord = false) :
    ∀ (n : Nat) (s : List Char), s.length ≤ n → ∀ k : Nat, 1 ≤ k →
      queryTok.drop k <+: replaceQueryTok rep s →
      queryTok.drop k <+: s := by
  have hnbl := (braceFree_not_mem rep hbf).1
  have hnbr := (braceFree_not_mem rep hbf).2
  intro n
  induction n with
  | zero =>
    intro s hs k _ h
    have hs0 : s = [] := List.length_eq_zero.mp (Nat.le_antisymm hs (Nat.zero_le _))
    subst hs0
    exact h
  | succ n ih =>
    intro s hs k hk h
    cases s with
    | nil => exact h
    | cons c rest =>
      have hrl : rest.length ≤ n := by
        simp only [List.length_cons] at hs
        omega
      by_cases hk9 : 9 ≤ k
      · have hdk : queryTok.drop k = [] :=
          List.drop_eq_nil_of_le (by simp [queryTok]; omega)
        rw [hdk]
        exact ⟨c :: rest, rfl⟩
      · have hk8 : k ≤ 8 := by omega
        by_cases hpre : queryTok.isPrefixOf (c :: rest) = true
        · rw [replaceQueryTok_cons, if_pos hpre] at h
          exfalso
          rcases prefix_comparable h (List.prefix_append rep _) with hc1 | hc2
          · have hrb : rbrace ∈ queryTok.drop k := by
              interval_cases k <;> decide
            exact hnbr (hc1.subset hrb)
          · interval_cases k
            · have hd1 : queryTok.drop 1 = lbrace :: queryTok.drop 2 := by decide
              rw [hd1] at hc2
              exact hnbl (head_mem_of_front rep lbrace _ hne hc2)
            · have hdk : queryTok.drop 2 = queryWord.drop 0 ++ [rbrace, rbrace] := by decide
              rw [hdk] at hc2
              have hcw := contains_word_of_prefix_drop rep 0 (prefix_strip_rbraces _ rep hnbr hc2)
              rw [hq] at hcw
              exact Bool.false_ne_true hcw
            · have hdk : queryTok.drop 3 = queryWord.drop 1 ++ [rbrace, rbrace] := by decide
              rw [hdk] at hc2
              have hcw := contains_word_of_prefix_drop rep 1 (prefix_strip_rbraces _ rep hnbr hc2)
              rw [hq] at hcw
              exact Bool.false_ne_true hcw
            · have hdk : queryTok.drop 4 = queryWord.drop 2 ++ [rbrace, rbrace] := by decide
              rw [hdk] at hc2
              have hcw := contains_word_of_prefix_drop rep 2 (prefix_strip_rbraces _ rep hnbr hc2)
              rw [hq] at hcw
              exact Bool.false_ne_true hcw
            · have hdk : queryTok.drop 5 = queryWord.drop 3 ++ [rbrace, rbrace] := by decide
              rw [hdk] at hc2
              have hcw := contains_word_of_prefix_drop rep 3 (prefix_strip_rbraces _ rep hnbr hc2)
              rw [hq] at hcw
              exact Bool.false_ne_true hcw
            · have hdk : queryTok.drop 6 = queryWord.drop 4 ++ [rbrace, rbrace] := by decide
              rw [hdk] at hc2
              have hcw := contains_word_of_prefix_drop rep 4 (prefix_strip_rbraces _ rep hnbr hc2)
              rw [hq] at hcw
              exact Bool.false_ne_true hcw
            · have hdk : queryTok.drop 7 = rbrace :: [rbrace] := by decide
              rw [hdk] at hc2
              exact hnbr (head_mem_of_front rep rbrace _ hne hc2)
            · have hdk : queryTok.drop 8 = rbrace :: [] := by decide
              rw [hdk] at hc2
              exact hnbr (head_mem_of_front rep rbrace _ hne hc2)
        · rw [replaceQueryTok_cons, if_neg hpre] at h
          have h9 : k < queryTok.length := by simp [queryTok]; omega
          have hdk := List.drop_eq_getElem_cons h9
          rw [hdk] at h ⊢
          rw [List.cons_prefix_cons] at h ⊢
          exact ⟨h.1, ih rest hrl (k + 1) (by omega) h.2⟩

theorem replace_no_token
    (rep : List Char) (hne : rep ≠ []) (hbf : braceFree rep = true)
    (hq : containsSub rep queryWord = false) :
    ∀ (n : Nat) (s : List Char), s.length ≤ n →
      containsSub queryTok (replaceQueryTok rep s) = false := by
  have hnbl := (braceFree_not_mem rep hbf).1
  intro n
  induction n with
  | zero =>
    intro s hs
    have hs0 : s = [] := List.length_eq_zero.mp (Nat.le_antisymm hs (Nat.zero_le _))
    subst hs0
    rfl
  | succ n ih =>
    intro s hs
    cases s with
    | nil => rfl
    | cons c rest =>
      have hrl : rest.length ≤ n := by
        simp only [List.length_cons] at hs
        omega
      by_cases hpre : queryTok.isPrefixOf (c :: rest) = true
      · rw [replaceQueryTok_cons, if_pos hpre]
        rw [containsSub_append_skip rep _ hnbl]
        apply ih
        simp only [List.length_drop, List.length_cons]
        omega
      · rw [replaceQueryTok_cons, if_neg hpre]
        have hR : containsSub queryTok (replaceQueryTok rep rest) = false := ih rest hrl
        rw [show containsSub queryTok (c :: replaceQueryTok rep rest) =
          (queryTok.isPrefixOf (c :: replaceQueryTok rep rest) ||
            containsSub queryTok (replaceQueryTok rep rest)) from rfl]
        rw [hR, Bool.or_false]
        rw [Bool.eq_false_iff]
        intro hcon
        have hp : queryTok <+: c :: replaceQueryTok rep rest :=
          (isPrefixOf_eq_true_iff _ _).mp hcon
        have hq1 : queryTok = lbrace :: queryTok.drop 1 := rfl
        rw [hq1, List.cons_prefix_cons] at hp
        have htl : queryTok.drop 1 <+: rest :=
          replace_tail_prefix_back rep hne hbf hq n rest hrl 1 (by omega) hp.2
        have hfull : queryTok <+: c :: rest := by
          rw [hq1, List.cons_prefix_cons]
          exact ⟨hp.1, htl⟩
        exact hpre ((isPrefixOf_eq_true_iff _ _).mpr hfull)

set_option maxRecDepth 4000 in
theorem escByte_braceFree : ∀ b : Nat, b < 256 → braceFree (escByte b) = true := by
  decide

theorem utf8Bytes_lt : ∀ c : Char, ∀ b ∈ utf8Bytes c, b < 256 := by
  intro c b hb
  simp only [utf8Bytes] at hb
  split at hb
  · simp at hb
    omega
  · split at hb
    · simp at hb
      rcases hb with hb | hb <;> omega
    · split at hb
      · simp at hb
        rcases hb with hb | hb | hb <;> omega
      · simp at hb
        rcases hb with hb | hb | hb | hb <;> omega

theorem braceFree_append : ∀ a b : List Char,
    braceFree (a ++ b) = (braceFree a && braceFree b) := by
  intro a b
  simp [braceFree, List.all_append]

theorem braceFree_flatMap_esc : ∀ bs : List Nat, (∀ b ∈ bs, b < 256) →
    braceFree (bs.flatMap escByte) = true := by
  intro bs
  induction bs with
  | nil => intro _; rfl
  | cons b bs' ih =>
    intro h
    rw [List.flatMap_cons, braceFree_append]
    rw [escByte_braceFree b (h b (List.mem_cons_self _ _))]
    rw [ih (fun x hx => h x (List.mem_cons_of_mem b hx))]
    rfl

theorem queryEscape_braceFree : ∀ q : List Char, braceFree (queryEscape q) = true := by
  intro q
  induction q with
  | nil => rfl
  | cons c q' ih =>
    rw [queryEscape, List.flatMap_cons, braceFree_append]
    rw [braceFree_flatMap_esc _ (utf8Bytes_lt c)]
    rw [show (q'.flatMap fun x => (utf8Bytes x).flatMap escByte) = queryEscape q' from rfl]
    rw [ih]
    rfl

/-- Claim C3, counterexample: with the adversarial template
`(((que(((query)))))))` (braces for the placeholder punctuation) and the
query `ry`, the single replacement re-forms a raw placeholder token by
juxtaposition, so a raw token remains in the built URL even though every
occurrence was replaced. -/
theorem buildURL_placeholder_cex :
    containsSub queryTok (buildURL cexTemplate ['r', 'y']) = true := by
  decide

/-- Claim C3 (amended): the built URL is the template with every
occurrence of the placeholder token replaced, left to right without
overlap, by the escaped query (Go's `QueryEscape`, which encodes a space
as a plus sign); since the escaped query never contains a brace, no raw
token remains whenever the escaped query is nonempty and is not a
substring of the bare word `query` (otherwise juxtaposition can re-form
a token, as the counterexample shows); on the spec's example the built
URL is `http://h/whois?q=ex+ample.com`. -/
theorem buildURL_no_placeholder :
    (∀ (tmpl q : List Char), queryEscape q ≠ [] →
      containsSub (queryEscape q) queryWord = false →
      containsSub queryTok (buildURL tmpl q) = false) ∧
    buildURL exTemplate exQuery = exBuiltURL := by
  constructor
  · intro tmpl q hne hq
    exact replace_no_token (queryEscape q) hne (queryEscape_braceFree q) hq
      tmpl.length tmpl (Nat.le_refl _)
  · decide

/-- Witness for the amended C3 theorem at the spec's example inputs. -/
theorem buildURL_no_placeholder_witness :
    queryEscape exQuery ≠ [] ∧
    containsSub (queryEscape exQuery) queryWord = false ∧
    containsSub queryTok (buildURL exTemplate exQuery) = false :=
  ⟨by decide, by decide,
   buildURL_no_placeholder.1 exTemplate exQuery (by decide) (by decide)⟩
